import Mathlib

/-
Verification of create_version_update_pr.py (tier4/experimental_automated_tag_tracer).

The development shallowly embeds the pure data manipulation of the script
and an effect-trace model of the per-dependency orchestration loop
(function create_version_update_pr, lines 166-285 of the source).
Python exceptions are modelled with Except; the observable side effects of
one dependency iteration are recorded as a list of Eff values in the order
the script performs them.
-/

/-- Python exceptions that the script can raise, as an abstract error type.
invalidVersion models packaging.version.InvalidVersion, valueError the
ValueError of the token check (line 171), nameError the unbound-local
NameError of update_repository_version (line 104) when no entry matched,
remoteApiError any github library exception from a remote call. -/
inductive PyErr where
  | invalidVersion
  | valueError
  | nameError
  | remoteApiError
deriving DecidableEq, Repr

/-- Decidable equality for Except, so concrete runs can be checked by decide. -/
instance instDecEqExcept {ε α : Type} [DecidableEq ε] [DecidableEq α] :
    DecidableEq (Except ε α) := fun x y =>
  match x, y with
  | Except.ok a, Except.ok b =>
    if h : a = b then Decidable.isTrue (congrArg Except.ok h)
    else Decidable.isFalse (fun hc => h (Except.ok.inj hc))
  | Except.error a, Except.error b =>
    if h : a = b then Decidable.isTrue (congrArg Except.error h)
    else Decidable.isFalse (fun hc => h (Except.error.inj hc))
  | Except.ok _, Except.error _ => Decidable.isFalse (fun hc => Except.noConfusion hc)
  | Except.error _, Except.ok _ => Decidable.isFalse (fun hc => Except.noConfusion hc)

/-- Numeric value of a list of decimal digit characters. -/
def natOfDigits (ds : List Char) : Nat :=
  ds.foldl (fun a c => a * 10 + (c.toNat - 48)) 0

/-- One segment of a PEP 440 local version: numeric segments compare as
numbers and sort after alphanumeric segments, which compare as strings. -/
inductive LocalSeg where
  | num (n : Nat)
  | str (s : String)
deriving DecidableEq, Repr

/-- A parsed PEP 440 version: epoch, release numbers, optional pre-release
(normalized letter a, b or rc with its number), optional post-release
number, optional dev number, optional local segments. -/
structure PepVersion where
  epoch : Nat
  release : List Nat
  pre : Option (String × Nat)
  post : Option Nat
  dev : Option Nat
  localSegs : Option (List LocalSeg)
deriving DecidableEq, Repr

/-- A nonempty run of digits at the front: its value and the rest. -/
def takeDigits (l : List Char) : Option (Nat × List Char) :=
  match l with
  | c :: _ =>
    if c.isDigit then some (natOfDigits (l.takeWhile Char.isDigit), l.dropWhile Char.isDigit)
    else none
  | [] => none

/-- Consume the given literal word at the front, returning the rest. -/
def stripLit : List Char → List Char → Option (List Char)
  | [], l => some l
  | w :: ws, c :: cs => if c = w then stripLit ws cs else none
  | _ :: _, [] => none

/-- Consume one optional PEP 440 separator (dash, underscore or dot). -/
def skipSep : List Char → List Char
  | '-' :: r => r
  | '_' :: r => r
  | '.' :: r => r
  | l => l

/-- First word of the table matching at the front, with its normalized
tag; longer words come first in the tables so the longest spelling wins,
as the backtracking regex of packaging resolves these alternations. -/
def findWord : List (List Char × String) → List Char → Option (String × List Char)
  | [], _ => none
  | (w, tag) :: ws, l =>
    match stripLit w l with
    | some r => some (tag, r)
    | none => findWord ws l

/-- Pre-release spellings of PEP 440 with their normalized letters:
alpha to a, beta to b, c / pre / preview to rc. -/
def preWords : List (List Char × String) :=
  [("preview".data, "rc"), ("alpha".data, "a"), ("beta".data, "b"), ("pre".data, "rc"),
   ("rc".data, "rc"), ("a".data, "a"), ("b".data, "b"), ("c".data, "rc")]

/-- Post-release spellings of PEP 440, all normalized to post. -/
def postWords : List (List Char × String) :=
  [("post".data, "post"), ("rev".data, "post"), ("r".data, "post")]

/-- After a matched pre-release word: an optional separator and an
optional number (0 when absent, as PEP 440 normalization fixes). -/
def parsePreTail (letter : String) (r : List Char) : Option (String × Nat) × List Char :=
  let r1 := skipSep r
  match takeDigits r1 with
  | some (n, r2) => (some (letter, n), r2)
  | none => (some (letter, 0), r1)

/-- The optional pre-release segment: optional separator, spelling,
optional separator, optional number; nothing is consumed when no
spelling follows. -/
def parsePre (l : List Char) : Option (String × Nat) × List Char :=
  match findWord preWords (skipSep l) with
  | some (tag, r) => parsePreTail tag r
  | none => (none, l)

/-- The word form of the optional post-release segment. -/
def parsePostWord (l : List Char) : Option Nat × List Char :=
  match findWord postWords (skipSep l) with
  | some (_, r) =>
    let r1 := skipSep r
    match takeDigits r1 with
    | some (n, r2) => (some n, r2)
    | none => (some 0, r1)
  | none => (none, l)

/-- The optional post-release segment: either a dash directly followed by
a number, or a separator-word-number form. -/
def parsePost (l : List Char) : Option Nat × List Char :=
  match l with
  | '-' :: rest =>
    match takeDigits rest with
    | some (n, r) => (some n, r)
    | none => parsePostWord l
  | _ => parsePostWord l

/-- The optional dev segment: optional separator, the word dev, optional
separator, optional number. -/
def parseDev (l : List Char) : Option Nat × List Char :=
  match stripLit ("dev".data) (skipSep l) with
  | some r =>
    let r1 := skipSep r
    match takeDigits r1 with
    | some (n, r2) => (some n, r2)
    | none => (some 0, r1)
  | none => (none, l)

/-- Characters allowed in a local segment after lowercasing. -/
def isLocalChar (c : Char) : Bool := c.isDigit || c.isLower

/-- A nonempty alphanumeric run at the front: the run and the rest. -/
def takeAlnum (l : List Char) : Option (List Char × List Char) :=
  match l with
  | c :: _ =>
    if isLocalChar c then some (l.takeWhile isLocalChar, l.dropWhile isLocalChar)
    else none
  | [] => none

/-- Normalization of one local segment: all-digit runs become numbers. -/
def segOf (cs : List Char) : LocalSeg :=
  if cs.all Char.isDigit then LocalSeg.num (natOfDigits cs) else LocalSeg.str (String.mk cs)

/-- Further local segments, each a separator followed by an alphanumeric
run; the first argument is recursion fuel (the input length suffices). -/
def parseLocalRest : Nat → List Char → List LocalSeg × List Char
  | 0, l => ([], l)
  | fuel + 1, l =>
    match l with
    | c :: rest =>
      if c == '-' || c == '_' || c == '.' then
        match takeAlnum rest with
        | some (seg, r) =>
          let p := parseLocalRest fuel r
          (segOf seg :: p.1, p.2)
        | none => ([], l)
      else ([], l)
    | [] => ([], [])

/-- The optional local version: a plus sign followed by one or more
separated alphanumeric segments; a plus sign with no segment makes the
whole version invalid. -/
def parseLocal (l : List Char) : Option (Option (List LocalSeg) × List Char) :=
  match l with
  | '+' :: rest =>
    match takeAlnum rest with
    | some (seg, r) =>
      let p := parseLocalRest r.length r
      some (some (segOf seg :: p.1), p.2)
    | none => none
  | _ => some (none, l)

/-- The optional epoch: a number directly followed by an exclamation
mark; plain leading digits belong to the release and are not consumed. -/
def parseEpoch (l : List Char) : Nat × List Char :=
  match takeDigits l with
  | some (n, r) =>
    match r with
    | '!' :: r2 => (n, r2)
    | _ => (0, l)
  | none => (0, l)

/-- Further release numbers, each a dot followed by digits; a dot not
followed by a digit is left for the following segments. The first
argument is recursion fuel (the input length suffices). -/
def parseReleaseRest : Nat → List Nat → List Char → List Nat × List Char
  | 0, acc, l => (acc, l)
  | fuel + 1, acc, l =>
    match l with
    | '.' :: c :: rest =>
      if c.isDigit then
        parseReleaseRest fuel (acc ++ [natOfDigits ((c :: rest).takeWhile Char.isDigit)])
          ((c :: rest).dropWhile Char.isDigit)
      else (acc, l)
    | _ => (acc, l)

/-- Model of packaging.version.parse (PEP 440): surrounding whitespace
stripped, case-insensitive, an optional v, an optional epoch, a
dot-separated release, optional pre-release (a, b, c, rc, alpha, beta,
pre, preview with optional separators and number), optional post-release
(post, rev, r forms or a dash with a number), optional dev segment, and
an optional local version after a plus sign. Strings outside this
grammar, such as "not-a-tag", yield none, which stands for the
InvalidVersion exception raised by packaging since release 22; valid
pre-release tags such as "v2.0.0-rc1" or "v1.2.3-beta" parse. -/
def parseVersion (s : String) : Option PepVersion :=
  let l0 := s.data.map Char.toLower
  let l1 := l0.dropWhile Char.isWhitespace
  let l2 := (l1.reverse.dropWhile Char.isWhitespace).reverse
  let l3 := match l2 with
    | 'v' :: r => r
    | r => r
  let e := parseEpoch l3
  match takeDigits e.2 with
  | none => none
  | some (r0, l5) =>
    let rel := parseReleaseRest l5.length [r0] l5
    let pre := parsePre rel.2
    let post := parsePost pre.2
    let dev := parseDev post.2
    match parseLocal dev.2 with
    | none => none
    | some (loc, l10) =>
      match l10 with
      | [] => some (PepVersion.mk e.1 rel.1 pre.1 post.1 dev.1 loc)
      | _ :: _ => none

/-- Release-segment comparison of PEP 440: compare componentwise, padding
the shorter release with zeros (the same order packaging obtains by
stripping trailing zeros). Returns true when the first is strictly
greater. -/
def releaseCmpGt : List Nat → List Nat → Bool
  | [], _ => false
  | x :: xs, [] => if x = 0 then releaseCmpGt xs [] else true
  | x :: xs, y :: ys => if y < x then true else if x < y then false else releaseCmpGt xs ys

/-- The release component as an Ordering, from releaseCmpGt. -/
def cmpRelease (a b : List Nat) : Ordering :=
  if releaseCmpGt a b then Ordering.gt
  else if releaseCmpGt b a then Ordering.lt
  else Ordering.eq

/-- The pre-release component of the packaging comparison key: a dev
release with neither pre nor post sorts below everything, a version
without pre-release sorts above all pre-releases, and pre-releases
compare by letter then number. -/
inductive PreKey where
  | negInf
  | val (letter : String) (n : Nat)
  | inf
deriving DecidableEq, Repr

/-- The pre-release key of a parsed version, as packaging builds it. -/
def preKey (v : PepVersion) : PreKey :=
  match v.pre with
  | some (l, n) => PreKey.val l n
  | none =>
    match v.post, v.dev with
    | none, some _ => PreKey.negInf
    | _, _ => PreKey.inf

/-- Ordering on pre-release keys; letters compare as strings, which gives
a, then b, then rc. -/
def cmpPreKey : PreKey → PreKey → Ordering
  | PreKey.negInf, PreKey.negInf => Ordering.eq
  | PreKey.negInf, _ => Ordering.lt
  | _, PreKey.negInf => Ordering.gt
  | PreKey.inf, PreKey.inf => Ordering.eq
  | PreKey.inf, _ => Ordering.gt
  | _, PreKey.inf => Ordering.lt
  | PreKey.val l1 n1, PreKey.val l2 n2 =>
    match compare l1 l2 with
    | Ordering.eq => compare n1 n2
    | o => o

/-- Post component: no post-release sorts below any post-release. -/
def cmpPostKey : Option Nat → Option Nat → Ordering
  | none, none => Ordering.eq
  | none, some _ => Ordering.lt
  | some _, none => Ordering.gt
  | some a, some b => compare a b

/-- Dev component: a dev release sorts below the same version without
dev. -/
def cmpDevKey : Option Nat → Option Nat → Ordering
  | none, none => Ordering.eq
  | none, some _ => Ordering.gt
  | some _, none => Ordering.lt
  | some a, some b => compare a b

/-- One local segment against another: alphanumeric segments sort below
numeric ones, as packaging keys them. -/
def cmpLocalSeg : LocalSeg → LocalSeg → Ordering
  | LocalSeg.str a, LocalSeg.str b => compare a b
  | LocalSeg.str _, LocalSeg.num _ => Ordering.lt
  | LocalSeg.num _, LocalSeg.str _ => Ordering.gt
  | LocalSeg.num a, LocalSeg.num b => compare a b

/-- Local segment lists compare lexicographically, a strict prefix first. -/
def cmpLocalList : List LocalSeg → List LocalSeg → Ordering
  | [], [] => Ordering.eq
  | [], _ :: _ => Ordering.lt
  | _ :: _, [] => Ordering.gt
  | x :: xs, y :: ys =>
    match cmpLocalSeg x y with
    | Ordering.eq => cmpLocalList xs ys
    | o => o

/-- Local component: no local version sorts below any local version. -/
def cmpLocalKey : Option (List LocalSeg) → Option (List LocalSeg) → Ordering
  | none, none => Ordering.eq
  | none, some _ => Ordering.lt
  | some _, none => Ordering.gt
  | some a, some b => cmpLocalList a b

/-- The full PEP 440 precedence of packaging: epoch, then release, then
the pre, post, dev and local components of the comparison key, in that
order. -/
def pepCmp (a b : PepVersion) : Ordering :=
  match compare a.epoch b.epoch with
  | Ordering.eq =>
    match cmpRelease a.release b.release with
    | Ordering.eq =>
      match cmpPreKey (preKey a) (preKey b) with
      | Ordering.eq =>
        match cmpPostKey a.post b.post with
        | Ordering.eq =>
          match cmpDevKey a.dev b.dev with
          | Ordering.eq => cmpLocalKey a.localSegs b.localSegs
          | o => o
        | o => o
      | o => o
    | o => o
  | o => o

/-- Strict greater-than on parsed versions, the comparison the script
performs on line 148. -/
def pepGt (a b : PepVersion) : Bool :=
  match pepCmp a b with
  | Ordering.gt => true
  | _ => false

/-- Loop body of get_latest_tag (source lines 146-149): latest starts at
current_version; for each tag, both the tag and current_version are parsed
(a parse failure raises, modelled as Except.error) and latest is replaced
by the tag whenever the tag compares greater than current_version (note:
than current_version, not than the running latest). -/
def get_latest_tag_go (cur : String) : List String → String → Except PyErr String
  | [], latest => Except.ok latest
  | t :: ts, latest =>
    match parseVersion t, parseVersion cur with
    | some vt, some vc =>
      get_latest_tag_go cur ts (if pepGt vt vc then t else latest)
    | _, _ => Except.error PyErr.invalidVersion

/-- get_latest_tag (source lines 145-150). -/
def get_latest_tag (tags : List String) (current_version : String) : Except PyErr String :=
  get_latest_tag_go current_version tags current_version

/-- One-or-more digits followed by a literal dot; returns the rest of the
input after the dot. Because a digit can never match the dot, the greedy
run of digits is the only possible match, so no backtracking is needed. -/
def digitsThenDot (l : List Char) : Option (List Char) :=
  match l with
  | [] => none
  | c :: _ =>
    if c.isDigit then
      match l.dropWhile Char.isDigit with
      | '.' :: r => some r
      | _ => none
    else none

/-- Anchored match of the default semantic-version pattern (source line 25)
at the front of the input: a literal v, then digits, dot, digits, dot,
digits; anything may follow. -/
def semverAtFront (l : List Char) : Bool :=
  match l with
  | 'v' :: r =>
    match digitsThenDot r with
    | some r2 =>
      match digitsThenDot r2 with
      | some r3 =>
        match r3 with
        | c :: _ => c.isDigit
        | [] => false
      | none => false
    | none => false
  | _ => false

/-- Unanchored scan: true when the anchored pattern matches at some
position of the input, as re.search does. -/
def semverSearchChars : List Char → Bool
  | [] => false
  | c :: rest => semverAtFront (c :: rest) || semverSearchChars rest

/-- re.search of the default semantic-version pattern on a string
(source line 88 with the default of line 25). -/
def re_search_semver (s : String) : Bool := semverSearchChars s.data

/-- Token check of create_version_update_pr (source lines 169-171):
os.getenv returns the value of GITHUB_TOKEN, or Python None when the
variable is absent (modelled by Option); the script raises ValueError only
when the value equals the string "None". -/
def github_token_check (env_GITHUB_TOKEN : Option String) : Except PyErr (Option String) :=
  if env_GITHUB_TOKEN = some "None" then Except.error PyErr.valueError
  else Except.ok env_GITHUB_TOKEN

/-- One entry of the autoware.repos manifest; only the url and version
fields take part in the claims (the type field is never read by the
script). -/
structure RepoInfo where
  url : String
  version : String
deriving DecidableEq, Repr

/-- The repositories mapping of the manifest, as its ordered list of
(relative path key, entry) pairs; Python dicts preserve insertion order
and have pairwise distinct keys. -/
def keysNodup (repos : List (String × RepoInfo)) : Prop :=
  (repos.map Prod.fst).Nodup

/-- The key bound by the loop of update_repository_version (source
lines 100-102): the loop overwrites the variable on every match, so the
key of the last matching entry remains; none models the unbound local. -/
def lastMatchKey : List (String × RepoInfo) → String → Option String
  | [], _ => none
  | kv :: rest, url =>
    match lastMatchKey rest url with
    | some k => some k
    | none => if kv.2.url = url then some kv.1 else none

/-- Python dict assignment repos[key]["version"] = newVersion: the entry
at the given key gets its version replaced, all other entries are kept. -/
def setVersionByKey (repos : List (String × RepoInfo)) (key newVersion : String) :
    List (String × RepoInfo) :=
  repos.map (fun kv => if kv.1 = key then (kv.1, RepoInfo.mk kv.2.url newVersion) else kv)

/-- AutowareRepos.update_repository_version (source lines 92-107): scan for
entries whose url matches, remember the key of the last one, then assign
the new version at that key; when no entry matched the assignment line
raises (the local name was never bound), modelled as PyErr.nameError.
Writing the file back is modelled by returning the updated mapping. -/
def update_repository_version (repos : List (String × RepoInfo)) (url newVersion : String) :
    Except PyErr (List (String × RepoInfo)) :=
  match lastMatchKey repos url with
  | none => Except.error PyErr.nameError
  | some k => Except.ok (setVersionByKey repos k newVersion)

/-- Python dict item assignment d[k] = v: overwrite in place when the key
is present (position kept), append otherwise. -/
def dictInsert (d : List (String × String)) (k v : String) : List (String × String) :=
  if d.any (fun p => p.1 = k) then
    d.map (fun p => if p.1 = k then (p.1, v) else p)
  else d ++ [(k, v)]

/-- A dict built by inserting the pairs of a list left to right, as a dict
comprehension does. -/
def toDict (l : List (String × String)) : List (String × String) :=
  l.foldl (fun d p => dictInsert d p.1 p.2) []

/-- Python dict lookup d[k] (keys of a dict are unique, so the first match
is the only one). -/
def dictGet : List (String × String) → String → Option String
  | [], _ => none
  | p :: t, k => if p.1 = k then some p.2 else dictGet t k

/-- The value of the last pair of the list carrying the given key, if any:
the reference semantics of repeated dict assignment. -/
def lastVal : List (String × String) → String → Option String
  | [], _ => none
  | p :: t, k =>
    match lastVal t k with
    | some v => some v
    | none => if p.1 = k then some p.2 else none

/-- The (url, version) pairs of the manifest entries, in entry order. -/
def reposPairs (repos : List (String × RepoInfo)) : List (String × String) :=
  repos.map (fun kv => (kv.2.url, kv.2.version))

/-- AutowareRepos._parse_repos (source lines 59-70): the dict comprehension
from url to version over all entries. -/
def parse_repos (repos : List (String × RepoInfo)) : List (String × String) :=
  toDict (reposPairs repos)

/-- AutowareRepos.pickup_semver_respositories (source lines 72-90): keep
the pairs of _parse_repos whose version satisfies re.search of the
configured pattern; the matcher for the default pattern is
re_search_semver. -/
def pickup_semver_respositories (repos : List (String × RepoInfo))
    (search : String → Bool) : List (String × String) :=
  (parse_repos repos).filter (fun p => search p.2)

/-- Observable side effects of one iteration of the dependency loop
(source lines 191-280), in the order the script performs them. -/
inductive Eff where
  | fetchTags
  | createBranch
  | checkoutBranch
  | updateManifest
  | stageAdd
  | commitSigned
  | pushBranch
  | checkoutBase
  | createPR
  | logError
  | deleteBranch
  | resetHard
  | cleanUntracked
  | reloadManifest
deriving DecidableEq, Repr

/-- One dependency as seen by the loop: its pinned version from the
manifest and the owner/name identifier extracted from its url (the url
regex of url_to_repository_name is not itself under verification, so the
extracted name is carried as data). -/
structure Dep where
  currentVersion : String
  repoName : String
deriving DecidableEq, Repr

/-- Outcome of the external world for one iteration: the tag listing call
may fail with a remote error, and each fallible operation of the guarded
try block (source lines 229-253) either succeeds or raises. -/
structure DepEnv where
  tagsResult : Except PyErr (List String)
  updateOk : Bool
  addOk : Bool
  commitOk : Bool
  pushOk : Bool
  checkoutBaseOk : Bool
  prOk : Bool
deriving Repr

/-- The operations of the try block in source order (lines 230-253), each
paired with whether it succeeds in the given environment. -/
def bodySteps (env : DepEnv) : List (Eff × Bool) :=
  [(Eff.updateManifest, env.updateOk), (Eff.stageAdd, env.addOk),
   (Eff.commitSigned, env.commitOk), (Eff.pushBranch, env.pushOk),
   (Eff.checkoutBase, env.checkoutBaseOk), (Eff.createPR, env.prOk)]

/-- Run the try block: operations are attempted left to right, the first
failing one is still attempted (and recorded) but ends the block. Returns
the trace and whether the block completed without raising. -/
def runBody : List (Eff × Bool) → List Eff × Bool
  | [] => ([], true)
  | (e, true) :: rest => ((e :: (runBody rest).1), (runBody rest).2)
  | (e, false) :: _ => ([e], false)

/-- The finally block (source lines 266-278): check out the base branch,
hard-reset to the remote base tip, clean untracked files, reload the
manifest from disk. -/
def finallyTrace : List Eff :=
  [Eff.checkoutBase, Eff.resetHard, Eff.cleanUntracked, Eff.reloadManifest]

/-- The try/except/finally of source lines 229-278, given the trace and
outcome of the try block: on success the finally block follows directly;
on a raise, the except block (lines 254-264) logs, checks out the base
branch and force-deletes the branch when this iteration created it, and
the finally block still follows. -/
def guardedRegion (body : List Eff × Bool) (newlyCreated : Bool) : List Eff :=
  if body.2 then
    body.1 ++ finallyTrace
  else
    body.1 ++ [Eff.logError, Eff.checkoutBase] ++
      (if newlyCreated then [Eff.deleteBranch] else []) ++ finallyTrace

/-- Branch name of source line 216: new_branch_prefix, repository name,
slash, latest tag. -/
def branchNameOf (pfx : String) (dep : Dep) (latestTag : String) : String :=
  pfx ++ dep.repoName ++ "/" ++ latestTag

/-- One iteration of the dependency loop (source lines 191-280). Inputs:
the configured branch name head (line 24), the pre-fetched remote branch
names (lines 183-189), the external-world outcomes, the dependency, and
the current local branch names (repo.heads). Returns the effect trace, the
local branches after the iteration, and ok, or error for an exception that
escapes the iteration (nothing catches the tag fetch of line 206 or the
parse errors of line 210). -/
def depStep (pfx : String) (branches : List String) (env : DepEnv) (dep : Dep)
    (heads : List String) : List Eff × List String × Except PyErr Unit :=
  match env.tagsResult with
  | Except.error e => ([Eff.fetchTags], heads, Except.error e)
  | Except.ok tags =>
    if tags.contains dep.currentVersion then
      match get_latest_tag tags dep.currentVersion with
      | Except.error e => ([Eff.fetchTags], heads, Except.error e)
      | Except.ok latestTag =>
        let branchName := branchNameOf pfx dep latestTag
        if branches.contains branchName then
          ([Eff.fetchTags], heads, Except.ok ())
        else
          let newlyCreated := !(heads.contains branchName)
          let heads1 := if newlyCreated then heads ++ [branchName] else heads
          let body := runBody (bodySteps env)
          let heads2 :=
            if body.2 then heads1
            else if newlyCreated then heads1.erase branchName else heads1
          ((Eff.fetchTags ::
              ((if newlyCreated then [Eff.createBranch] else []) ++
                (Eff.checkoutBranch :: guardedRegion body newlyCreated))),
           heads2, Except.ok ())
    else
      ([Eff.fetchTags], heads, Except.ok ())

/-- The dependency loop itself: iterations run in sequence, threading the
local branch state; an exception escaping an iteration aborts the whole
loop (there is no handler around it in create_version_update_pr). -/
def runLoop (pfx : String) (branches : List String) :
    List (DepEnv × Dep) → List String → List Eff × Except PyErr Unit
  | [], _ => ([], Except.ok ())
  | (env, dep) :: rest, heads =>
    match depStep pfx branches env dep heads with
    | (t, heads1, Except.ok _) =>
      ((t ++ (runLoop pfx branches rest heads1).1), (runLoop pfx branches rest heads1).2)
    | (t, _, Except.error e) => (t, Except.error e)

/-- Environment in which the tag listing call raises a remote error. -/
def envFetchFail : DepEnv :=
  { tagsResult := Except.error PyErr.remoteApiError, updateOk := true, addOk := true,
    commitOk := true, pushOk := true, checkoutBaseOk := true, prOk := true }

/-- Environment in which every external operation succeeds; the remote
tags are v1.0.0 and v1.1.0. -/
def envAllOk : DepEnv :=
  { tagsResult := Except.ok ["v1.0.0", "v1.1.0"], updateOk := true, addOk := true,
    commitOk := true, pushOk := true, checkoutBaseOk := true, prOk := true }

/-- Same as envAllOk except that pull-request creation raises. -/
def envPRFail : DepEnv := { envAllOk with prOk := false }

/-- Dependency pinned at v1.0.0, repository acme/lib. -/
def depAcme : Dep := { currentVersion := "v1.0.0", repoName := "acme/lib" }

/-- A second dependency, repository acme/other. -/
def depOther : Dep := { currentVersion := "v1.0.0", repoName := "acme/other" }

theorem semverSearchChars_iff (l : List Char) :
    semverSearchChars l = true ↔ ∃ i, semverAtFront (l.drop i) = true := by
  induction l with
  | nil =>
    simp [semverSearchChars, semverAtFront]
  | cons c t ih =>
    simp only [semverSearchChars, Bool.or_eq_true, ih]
    constructor
    · rintro (h | ⟨i, hi⟩)
      · exact ⟨0, h⟩
      · exact ⟨i + 1, by simpa using hi⟩
    · rintro ⟨i, hi⟩
      cases i with
      | zero => exact Or.inl (by simpa using hi)
      | succ j => exact Or.inr ⟨j, by simpa using hi⟩

theorem guardedRegion_eq (body : List Eff × Bool) (nc : Bool) :
    guardedRegion body nc =
      body.1 ++
        (if body.2 then [] else
          [Eff.logError, Eff.checkoutBase] ++ (if nc then [Eff.deleteBranch] else [])) ++
        finallyTrace := by
  unfold guardedRegion
  cases h : body.2 <;> simp [h]

theorem runBody_trace_subset (l : List (Eff × Bool)) :
    ∀ e ∈ (runBody l).1, e ∈ l.map Prod.fst := by
  induction l with
  | nil => simp [runBody]
  | cons p t ih =>
    rcases p with ⟨a, ok⟩
    intro e he
    cases ok with
    | false =>
      simp only [runBody, List.mem_singleton] at he
      simp [he]
    | true =>
      simp only [runBody, List.mem_cons] at he
      rcases he with rfl | he
      · simp
      · exact List.mem_cons_of_mem _ (ih e he)

theorem contains_false_append_erase (l : List String) (b : String)
    (h : l.contains b = false) : (l ++ [b]).erase b = l := by
  have hb : b ∉ l := by simpa using h
  rw [List.erase_append_right _ hb]
  simp

/-- C1: the claim states that get_latest_tag returns the tag with the
greatest parsed version among the tags strictly above the baseline, with
latestNewerTag([v1.0.0, v2.0.0, v1.5.0], v1.0.0) = v2.0.0. The code
compares every tag against current_version instead of against the running
latest (source line 148), so the last tag above the baseline wins: on the
very example of the claim the function returns v1.5.0, and permuting the
input changes the answer, which the greatest-version reading forbids. The
function name and the loop description (source lines 196-199, step: get
the latest tag) show the spec is the intent and the comparison is a slip
in the code. -/
theorem get_latest_tag_returns_last_not_greatest :
    get_latest_tag ["v1.0.0", "v2.0.0", "v1.5.0"] "v1.0.0" = Except.ok "v1.5.0" ∧
    get_latest_tag ["v1.0.0", "v1.5.0", "v2.0.0"] "v1.0.0" = Except.ok "v2.0.0" ∧
    releaseCmpGt [2, 0, 0] [1, 5, 0] = true := by
  refine ⟨by decide, by decide, by decide⟩

/-- C4 counterexample: the claim states that unparsable tags are skipped
silently and the function still returns a result. On the tag list
[not-a-tag] with baseline v1.0.0, version.parse raises InvalidVersion
(there is no try/except around it, source line 148) and get_latest_tag
fails instead of returning a result. -/
theorem unparsable_tag_raises_cex :
    get_latest_tag ["not-a-tag"] "v1.0.0" = Except.error PyErr.invalidVersion := by decide

theorem get_latest_tag_go_ok (cur : String) (tags : List String) :
    ∀ latest, (∀ t ∈ tags, (parseVersion t).isSome) →
      (tags = [] ∨ (parseVersion cur).isSome) →
      ∃ r, get_latest_tag_go cur tags latest = Except.ok r := by
  induction tags with
  | nil => intro latest _ _; exact ⟨latest, rfl⟩
  | cons t ts ih =>
    intro latest hall hcur
    rcases Option.isSome_iff_exists.mp (hall t (List.mem_cons_self t ts)) with ⟨vt, hvt⟩
    rcases hcur with hnil | hsome
    · exact absurd hnil (List.cons_ne_nil t ts)
    · rcases Option.isSome_iff_exists.mp hsome with ⟨vc, hvc⟩
      have hrest : ∀ u ∈ ts, (parseVersion u).isSome :=
        fun u hu => hall u (List.mem_cons_of_mem t hu)
      rcases ih (if pepGt vt vc then t else latest) hrest (Or.inr hsome) with ⟨r, hr⟩
      exact ⟨r, by simp only [get_latest_tag_go, hvt, hvc]; exact hr⟩

theorem get_latest_tag_go_err (cur : String) (tags : List String) :
    ∀ latest, (∃ t ∈ tags, parseVersion t = none) →
      get_latest_tag_go cur tags latest = Except.error PyErr.invalidVersion := by
  induction tags with
  | nil => intro latest h; simp at h
  | cons t ts ih =>
    intro latest h
    cases ht : parseVersion t with
    | none =>
      cases hc : parseVersion cur <;> simp [get_latest_tag_go, ht, hc]
    | some vt =>
      cases hc : parseVersion cur with
      | none => simp [get_latest_tag_go, ht, hc]
      | some vc =>
        rcases h with ⟨u, hu, hnone⟩
        rcases List.mem_cons.mp hu with rfl | hmem
        · exact absurd ht (by simp [hnone])
        · simp only [get_latest_tag_go, ht, hc]
          exact ih _ ⟨u, hmem, hnone⟩

/-- C4 amended: get_latest_tag does not skip unparsable tags. When every
tag parses and (for a nonempty tag list) the baseline parses, the function
returns a result; but as soon as some tag fails to parse, version.parse
raises InvalidVersion and the call fails (nothing in source lines 145-150
catches it). -/
theorem get_latest_tag_parse_amended (tags : List String) (cur : String) :
    ((∀ t ∈ tags, (parseVersion t).isSome) → (tags = [] ∨ (parseVersion cur).isSome) →
      ∃ r, get_latest_tag tags cur = Except.ok r)
    ∧ ((∃ t ∈ tags, parseVersion t = none) →
      get_latest_tag tags cur = Except.error PyErr.invalidVersion) := by
  constructor
  · intro hall hcur
    exact get_latest_tag_go_ok cur tags cur hall hcur
  · intro hbad
    exact get_latest_tag_go_err cur tags cur hbad

/-- Witness for the amended C4 at a concrete input whose tag list holds a
valid pre-release tag: the call returns a result rather than failing. -/
theorem get_latest_tag_parse_amended_witness :
    ∃ r, get_latest_tag ["v1.1.0", "v2.0.0-rc1"] "v1.0.0" = Except.ok r :=
  (get_latest_tag_parse_amended ["v1.1.0", "v2.0.0-rc1"] "v1.0.0").1
    (by decide) (Or.inr (by decide))

/-- Fidelity checks of the version-parse model: valid PEP 440 forms with
pre-release, post, dev, epoch and local segments parse, as packaging
accepts them, while non-version text does not. -/
theorem pep440_parse_examples :
    (parseVersion "v2.0.0-rc1").isSome = true ∧
    (parseVersion "v1.2.3-beta").isSome = true ∧
    (parseVersion "1.0.0a1").isSome = true ∧
    (parseVersion "1.0.post2").isSome = true ∧
    (parseVersion "1.0.dev3").isSome = true ∧
    (parseVersion "2!1.0").isSome = true ∧
    (parseVersion "1.0+ubuntu.1").isSome = true ∧
    parseVersion "not-a-tag" = none ∧
    parseVersion "" = none := by
  refine ⟨by decide, by decide, by decide, by decide, by decide, by decide, by decide,
    by decide, by decide⟩

/-- C5: the claim states that an absent GITHUB_TOKEN, like the literal
placeholder, raises a fatal configuration error at startup. The code
compares os.getenv (which yields Python None when the variable is absent)
to the string "None" (source line 170), so the absent case sails through
and only the literal placeholder string raises; a set token also passes. -/
theorem github_token_absent_not_fatal :
    github_token_check none = Except.ok none ∧
    github_token_check (some "None") = Except.error PyErr.valueError ∧
    github_token_check (some "ghp_abc") = Except.ok (some "ghp_abc") := by
  refine ⟨by decide, by decide, by decide⟩

/-- C2 counterexample: with two dependencies where the tag fetch of the
first raises a remote error, the run aborts with that error after the
first fetch: the trace shows the second dependency is never reached, so a
fetch failure does not abort only the one dependency. -/
theorem tag_fetch_error_aborts_run_cex :
    runLoop "feat/update-" [] [(envFetchFail, depAcme), (envAllOk, depOther)] [] =
      ([Eff.fetchTags], Except.error PyErr.remoteApiError) := by decide

/-- C2 amended: a tag fetch failure is not caught at the per-dependency
boundary: it propagates out of the loop immediately (source line 206 is
outside the try of line 229), aborting the overall run with no later
dependency processed; only exceptions raised inside the guarded try block
are confined to the one dependency. -/
theorem tag_fetch_error_propagates_amended (pfx : String) (branches : List String)
    (env : DepEnv) (dep : Dep) (rest : List (DepEnv × Dep)) (heads : List String) :
    (∀ e, env.tagsResult = Except.error e →
      runLoop pfx branches ((env, dep) :: rest) heads = ([Eff.fetchTags], Except.error e))
    ∧ (∀ tags, env.tagsResult = Except.ok tags →
      (∀ e, get_latest_tag tags dep.currentVersion ≠ Except.error e) →
      (depStep pfx branches env dep heads).2.2 = Except.ok ()) := by
  constructor
  · intro e he
    simp [runLoop, depStep, he]
  · intro tags htags hlt
    simp only [depStep, htags]
    cases hc : tags.contains dep.currentVersion with
    | false => simp
    | true =>
      cases hg : get_latest_tag tags dep.currentVersion with
      | error e => exact absurd hg (hlt e)
      | ok latest =>
        simp only []
        cases hb : branches.contains (branchNameOf pfx dep latest) <;> simp [hb]

/-- Witness for the amended C2: the fetch-failure half at a concrete run,
which aborts with the remote error after the single fetch. -/
theorem tag_fetch_error_propagates_amended_witness :
    runLoop "feat/update-" [] [(envFetchFail, depAcme)] [] =
      ([Eff.fetchTags], Except.error PyErr.remoteApiError) :=
  (tag_fetch_error_propagates_amended "feat/update-" [] envFetchFail depAcme [] []).1
    PyErr.remoteApiError rfl

theorem suffix_append_left {s t : List Eff} (u : List Eff) (h : s <:+ t) : s <:+ u ++ t :=
  h.trans (List.suffix_append u t)

theorem suffix_cons_right {s t : List Eff} (a : Eff) (h : s <:+ t) : s <:+ a :: t :=
  h.trans (List.suffix_cons a t)

theorem finally_suffix_guardedRegion (body : List Eff × Bool) (nc : Bool) :
    finallyTrace <:+ guardedRegion body nc := by
  rw [guardedRegion_eq]
  exact List.suffix_append _ _

/-- C3: for every iteration that entered the guarded region (tags fetched,
current version among them, latest tag computed, branch not already on the
remote), the trace ends with the finally block of source lines 266-278 on
every exit path, success of the try block or any raise inside it: check
out base, hard reset, clean untracked files, reload the manifest. -/
theorem cleanup_runs_on_every_exit (pfx : String) (branches : List String) (env : DepEnv)
    (dep : Dep) (heads : List String) (tags : List String) (latest : String)
    (h1 : env.tagsResult = Except.ok tags)
    (h2 : tags.contains dep.currentVersion = true)
    (h3 : get_latest_tag tags dep.currentVersion = Except.ok latest)
    (h4 : branches.contains (branchNameOf pfx dep latest) = false) :
    [Eff.checkoutBase, Eff.resetHard, Eff.cleanUntracked, Eff.reloadManifest] <:+
      (depStep pfx branches env dep heads).1 := by
  have hfin :
      [Eff.checkoutBase, Eff.resetHard, Eff.cleanUntracked, Eff.reloadManifest] =
        finallyTrace := rfl
  rw [hfin]
  cases hnc : heads.contains (branchNameOf pfx dep latest) with
  | false =>
    simp only [depStep, h1, h2, h3, h4, hnc]
    simp only [Bool.not_false, if_true, Bool.false_eq_true, if_false]
    exact suffix_cons_right _ (suffix_append_left _ (suffix_cons_right _
      (finally_suffix_guardedRegion _ _)))
  | true =>
    simp only [depStep, h1, h2, h3, h4, hnc]
    simp only [Bool.not_true, Bool.false_eq_true, if_false]
    exact suffix_cons_right _ (suffix_append_left _ (suffix_cons_right _
      (finally_suffix_guardedRegion _ _)))

/-- Witness for C3 at a concrete successful iteration. -/
theorem cleanup_runs_on_every_exit_witness :
    [Eff.checkoutBase, Eff.resetHard, Eff.cleanUntracked, Eff.reloadManifest] <:+
      (depStep "feat/update-" [] envAllOk depAcme []).1 :=
  cleanup_runs_on_every_exit "feat/update-" [] envAllOk depAcme []
    ["v1.0.0", "v1.1.0"] "v1.1.0" rfl (by decide) (by decide) (by decide)

/-- C6: when the derived branch name is already among the pre-fetched
remote branch names, the iteration stops at the check of source lines
219-221: the trace holds nothing but the tag fetch (no branch creation, no
checkout, no manifest write, no commit, no push, no pull request), the
local branches are untouched, and the loop continues normally. -/
theorem remote_branch_skip_no_mutation (pfx : String) (branches : List String) (env : DepEnv)
    (dep : Dep) (heads : List String) (tags : List String) (latest : String)
    (h1 : env.tagsResult = Except.ok tags)
    (h2 : tags.contains dep.currentVersion = true)
    (h3 : get_latest_tag tags dep.currentVersion = Except.ok latest)
    (h4 : branches.contains (branchNameOf pfx dep latest) = true) :
    depStep pfx branches env dep heads = ([Eff.fetchTags], heads, Except.ok ()) := by
  have h2m : dep.currentVersion ∈ tags := by simpa using h2
  have h4m : branchNameOf pfx dep latest ∈ branches := by simpa using h4
  simp [depStep, h1, h2m, h3, h4m]

/-- Witness for C6 at a concrete input whose branch name is already on the
remote. -/
theorem remote_branch_skip_no_mutation_witness :
    depStep "feat/update-" ["feat/update-acme/lib/v1.1.0"] envAllOk depAcme [] =
      ([Eff.fetchTags], [], Except.ok ()) :=
  remote_branch_skip_no_mutation "feat/update-" ["feat/update-acme/lib/v1.1.0"] envAllOk
    depAcme [] ["v1.0.0", "v1.1.0"] "v1.1.0" rfl (by decide) (by decide) (by decide)

/-- C7: when some operation of the try block raises, the except block of
source lines 254-264 runs: the error is logged, the base branch is checked
out, and the working branch is force-deleted exactly when this iteration
created it (heads did not contain the branch name on entry); a
pre-existing local branch is never deleted, and the local branch state
after the iteration equals the state on entry. -/
theorem guarded_failure_cleanup (pfx : String) (branches : List String) (env : DepEnv)
    (dep : Dep) (heads : List String) (tags : List String) (latest : String)
    (h1 : env.tagsResult = Except.ok tags)
    (h2 : tags.contains dep.currentVersion = true)
    (h3 : get_latest_tag tags dep.currentVersion = Except.ok latest)
    (h4 : branches.contains (branchNameOf pfx dep latest) = false)
    (hbody : (runBody (bodySteps env)).2 = false) :
    (∃ pre, (depStep pfx branches env dep heads).1 =
      pre ++ [Eff.logError, Eff.checkoutBase] ++
        (if heads.contains (branchNameOf pfx dep latest) then [] else [Eff.deleteBranch]) ++
        finallyTrace)
    ∧ (Eff.deleteBranch ∈ (depStep pfx branches env dep heads).1 ↔
        heads.contains (branchNameOf pfx dep latest) = false)
    ∧ (depStep pfx branches env dep heads).2.1 = heads := by
  have hnb : Eff.deleteBranch ∉ (runBody (bodySteps env)).1 := by
    intro hmem
    have := runBody_trace_subset (bodySteps env) Eff.deleteBranch hmem
    simp [bodySteps] at this
  cases hnc : heads.contains (branchNameOf pfx dep latest) with
  | false =>
    simp only [depStep, h1, h2, h3, h4, hnc]
    simp only [Bool.not_false, if_true, Bool.false_eq_true, if_false, hbody]
    rw [guardedRegion_eq]
    simp only [hbody, Bool.false_eq_true, if_false, if_true]
    refine ⟨⟨Eff.fetchTags :: ([Eff.createBranch] ++
      (Eff.checkoutBranch :: (runBody (bodySteps env)).1)), by simp⟩, ?_, ?_⟩
    · simp [hnb]
    · exact contains_false_append_erase heads _ hnc
  | true =>
    simp only [depStep, h1, h2, h3, h4, hnc]
    simp only [Bool.not_true, Bool.false_eq_true, if_false, hbody]
    rw [guardedRegion_eq]
    simp only [hbody, Bool.false_eq_true, if_false]
    refine ⟨⟨Eff.fetchTags :: ([] ++
      (Eff.checkoutBranch :: (runBody (bodySteps env)).1)), by simp⟩, ?_, rfl⟩
    simp [hnb, finallyTrace]

/-- Witness for C7: pull-request creation fails after a successful push on
a branch this iteration created; the branch is force-deleted and the local
state returns to the entry state. -/
theorem guarded_failure_cleanup_witness :
    (∃ pre, (depStep "feat/update-" [] envPRFail depAcme []).1 =
      pre ++ [Eff.logError, Eff.checkoutBase] ++
        (if List.contains [] (branchNameOf "feat/update-" depAcme "v1.1.0") then []
          else [Eff.deleteBranch]) ++ finallyTrace)
    ∧ (Eff.deleteBranch ∈ (depStep "feat/update-" [] envPRFail depAcme []).1 ↔
        List.contains [] (branchNameOf "feat/update-" depAcme "v1.1.0") = false)
    ∧ (depStep "feat/update-" [] envPRFail depAcme []).2.1 = [] :=
  guarded_failure_cleanup "feat/update-" [] envPRFail depAcme [] ["v1.0.0", "v1.1.0"]
    "v1.1.0" rfl (by decide) (by decide) (by decide) (by decide)

/-- C10: pickup_semver_respositories keeps exactly the entries of the
url-to-version dict whose version satisfies re.search of the pattern, and
re.search with the default pattern is an unanchored scan: it succeeds iff
the anchored pattern matches at some position, so versions with
surrounding text such as prefix-v1.2.3 and v1.2.3-beta are selected too,
while a plain branch name like main is not. -/
theorem pickup_semver_unanchored_search :
    (∀ (repos : List (String × RepoInfo)) (p : String × String),
      p ∈ pickup_semver_respositories repos re_search_semver ↔
        p ∈ parse_repos repos ∧ re_search_semver p.2 = true)
    ∧ (∀ s : String, re_search_semver s = true ↔
        ∃ i, semverAtFront (s.data.drop i) = true)
    ∧ re_search_semver "prefix-v1.2.3" = true
    ∧ re_search_semver "v1.2.3-beta" = true
    ∧ re_search_semver "main" = false := by
  refine ⟨?_, ?_, by decide, by decide, by decide⟩
  · intro repos p
    simp [pickup_semver_respositories, List.mem_filter]
  · intro s
    exact semverSearchChars_iff s.data

theorem lastMatchKey_none_of_no_match (repos : List (String × RepoInfo)) (url : String)
    (h : ∀ kv ∈ repos, kv.2.url ≠ url) : lastMatchKey repos url = none := by
  induction repos with
  | nil => rfl
  | cons kv rest ih =>
    have hrest : lastMatchKey rest url = none :=
      ih (fun x hx => h x (List.mem_cons_of_mem kv hx))
    simp only [lastMatchKey, hrest]
    simp [h kv (List.mem_cons_self kv rest)]

theorem lastMatchKey_isSome_of_match (repos : List (String × RepoInfo)) (url : String)
    (kv : String × RepoInfo) (hm : kv ∈ repos) (hu : kv.2.url = url) :
    lastMatchKey repos url ≠ none := by
  induction repos with
  | nil => cases hm
  | cons a rest ih =>
    rcases List.mem_cons.mp hm with rfl | hmem
    · cases hr : lastMatchKey rest url with
      | some k => simp [lastMatchKey, hr]
      | none => simp [lastMatchKey, hr, hu]
    · cases hr : lastMatchKey rest url with
      | some k => simp [lastMatchKey, hr]
      | none => exact absurd hr (ih hmem)

theorem lastMatchKey_append_last (pre post : List (String × RepoInfo)) (k : String)
    (info : RepoInfo) (url : String) (hm : info.url = url)
    (hpost : ∀ kv ∈ post, kv.2.url ≠ url) :
    lastMatchKey (pre ++ ((k, info) :: post)) url = some k := by
  induction pre with
  | nil =>
    simp only [List.nil_append, lastMatchKey]
    rw [lastMatchKey_none_of_no_match post url hpost]
    simp [hm]
  | cons kv pre ih =>
    simp only [List.cons_append, lastMatchKey, List.append_eq, ih]

theorem map_setv_id (l : List (String × RepoInfo)) (k v : String)
    (h : ∀ kv ∈ l, kv.1 ≠ k) :
    l.map (fun kv => if kv.1 = k then (kv.1, RepoInfo.mk kv.2.url v) else kv) = l := by
  induction l with
  | nil => rfl
  | cons a t ih =>
    simp only [List.map_cons]
    rw [if_neg (h a (List.mem_cons_self a t))]
    rw [ih (fun x hx => h x (List.mem_cons_of_mem a hx))]

theorem setVersionByKey_append (pre post : List (String × RepoInfo)) (k : String)
    (info : RepoInfo) (v : String)
    (hpre : ∀ kv ∈ pre, kv.1 ≠ k) (hpost : ∀ kv ∈ post, kv.1 ≠ k) :
    setVersionByKey (pre ++ ((k, info) :: post)) k v =
      pre ++ ((k, RepoInfo.mk info.url v) :: post) := by
  simp [setVersionByKey, map_setv_id pre k v hpre, map_setv_id post k v hpost]

theorem keys_separate (pre post : List (String × RepoInfo)) (k : String) (info : RepoInfo)
    (hnd : ((pre ++ ((k, info) :: post)).map Prod.fst).Nodup) :
    (∀ kv ∈ pre, kv.1 ≠ k) ∧ (∀ kv ∈ post, kv.1 ≠ k) := by
  rw [List.map_append, List.map_cons, List.nodup_append] at hnd
  obtain ⟨h1, h2, hd⟩ := hnd
  have hk : k ∉ post.map Prod.fst := (List.nodup_cons.mp h2).1
  constructor
  · intro kv hkv heq
    exact hd (List.mem_map_of_mem Prod.fst hkv) (by simp [heq])
  · intro kv hkv heq
    exact hk (heq ▸ List.mem_map_of_mem Prod.fst hkv)

/-- C8: update_repository_version raises exactly when no manifest entry
carries the given url (the loop of source lines 100-102 never binds the
target key, so the assignment line raises; the spec names this failure
UnknownRepositoryError), and when a matching entry exists, the version of
the last matching entry is overwritten with the new version while every
other entry is kept. -/
theorem update_repository_version_spec (repos : List (String × RepoInfo)) (url v : String)
    (hnd : keysNodup repos) :
    (update_repository_version repos url v = Except.error PyErr.nameError ↔
      ∀ kv ∈ repos, kv.2.url ≠ url)
    ∧ (∀ pre k info post,
        repos = pre ++ ((k, info) :: post) → info.url = url →
        (∀ kv ∈ post, kv.2.url ≠ url) →
        update_repository_version repos url v =
          Except.ok (pre ++ ((k, RepoInfo.mk url v) :: post))) := by
  constructor
  · constructor
    · intro h kv hkv heq
      cases hk : lastMatchKey repos url with
      | some k => simp [update_repository_version, hk] at h
      | none => exact lastMatchKey_isSome_of_match repos url kv hkv heq hk
    · intro hall
      simp [update_repository_version, lastMatchKey_none_of_no_match repos url hall]
  · intro pre k info post hr hm hpost
    subst hr
    subst hm
    have hk := lastMatchKey_append_last pre post k info info.url rfl hpost
    have hnd' : ((pre ++ ((k, info) :: post)).map Prod.fst).Nodup := hnd
    obtain ⟨hp1, hp2⟩ := keys_separate pre post k info hnd'
    simp [update_repository_version, hk, setVersionByKey_append pre post k info v hp1 hp2]

/-- Manifest with two distinct entries for the C8 witness. -/
def reposTwo : List (String × RepoInfo) :=
  [("core/a", RepoInfo.mk "https://github.com/acme/a.git" "v1.0.0"),
   ("core/b", RepoInfo.mk "https://github.com/acme/b.git" "v2.0.0")]

/-- Witness for C8: updating the second entry by url overwrites exactly
its version. -/
theorem update_repository_version_spec_witness :
    update_repository_version reposTwo "https://github.com/acme/b.git" "v9.9.9" =
      Except.ok [("core/a", RepoInfo.mk "https://github.com/acme/a.git" "v1.0.0"),
        ("core/b", RepoInfo.mk "https://github.com/acme/b.git" "v9.9.9")] :=
  (update_repository_version_spec reposTwo "https://github.com/acme/b.git" "v9.9.9"
    (show (reposTwo.map Prod.fst).Nodup by decide)).2
    [("core/a", RepoInfo.mk "https://github.com/acme/a.git" "v1.0.0")] "core/b"
    (RepoInfo.mk "https://github.com/acme/b.git" "v2.0.0") [] rfl rfl (by simp)

theorem any_key_false_iff (d : List (String × String)) (k : String) :
    d.any (fun p => p.1 = k) = false ↔ ∀ p ∈ d, p.1 ≠ k := by
  constructor
  · intro h p hp heq
    have ht : d.any (fun q => q.1 = k) = true := List.any_eq_true.mpr ⟨p, hp, by simp [heq]⟩
    rw [h] at ht
    cases ht
  · intro h
    cases hb : d.any (fun q => q.1 = k) with
    | false => rfl
    | true =>
      rcases List.any_eq_true.mp hb with ⟨p, hp, hpk⟩
      have hne := h p hp
      simp at hpk
      exact absurd hpk hne

theorem dictGet_none_of_no_match (d : List (String × String)) (k : String)
    (h : ∀ p ∈ d, p.1 ≠ k) : dictGet d k = none := by
  induction d with
  | nil => rfl
  | cons p t ih =>
    simp only [dictGet]
    rw [if_neg (h p (List.mem_cons_self p t))]
    exact ih (fun x hx => h x (List.mem_cons_of_mem p hx))

theorem dictGet_append_some (a b : List (String × String)) (k v : String)
    (h : dictGet a k = some v) : dictGet (a ++ b) k = some v := by
  induction a with
  | nil => simp [dictGet] at h
  | cons p t ih =>
    simp only [dictGet] at h
    simp only [List.cons_append, dictGet, List.append_eq]
    by_cases hp : p.1 = k
    · rw [if_pos hp] at h ⊢
      exact h
    · rw [if_neg hp] at h ⊢
      exact ih h

theorem dictGet_append_none (a b : List (String × String)) (k : String)
    (h : dictGet a k = none) : dictGet (a ++ b) k = dictGet b k := by
  induction a with
  | nil => simp
  | cons p t ih =>
    by_cases hp : p.1 = k
    · simp [dictGet, hp] at h
    · simp only [dictGet, if_neg hp] at h
      simp only [List.cons_append, dictGet, List.append_eq, if_neg hp]
      exact ih h

theorem lastVal_none_of_no_match (l : List (String × String)) (k : String)
    (h : ∀ p ∈ l, p.1 ≠ k) : lastVal l k = none := by
  induction l with
  | nil => rfl
  | cons p t ih =>
    simp only [lastVal, ih (fun x hx => h x (List.mem_cons_of_mem p hx))]
    simp [h p (List.mem_cons_self p t)]

theorem lastVal_append (a b : List (String × String)) (k : String) :
    lastVal (a ++ b) k = (lastVal b k).or (lastVal a k) := by
  induction a with
  | nil =>
    simp only [List.nil_append, lastVal]
    cases lastVal b k <;> rfl
  | cons p t ih =>
    simp only [List.cons_append, lastVal, List.append_eq, ih]
    cases lastVal b k <;> cases lastVal t k <;> rfl

theorem map_overwrite_id (d : List (String × String)) (k v : String)
    (h : ∀ p ∈ d, p.1 ≠ k) :
    d.map (fun p => if p.1 = k then (p.1, v) else p) = d := by
  induction d with
  | nil => rfl
  | cons p t ih =>
    simp only [List.map_cons]
    rw [if_neg (h p (List.mem_cons_self p t))]
    rw [ih (fun x hx => h x (List.mem_cons_of_mem p hx))]

theorem dictGet_overwrite (d : List (String × String)) (k v k' : String)
    (hnd : (d.map Prod.fst).Nodup) :
    dictGet (d.map (fun p => if p.1 = k then (p.1, v) else p)) k' =
      if k' = k then (if d.any (fun p => p.1 = k) then some v else none)
      else dictGet d k' := by
  induction d with
  | nil => simp [dictGet]
  | cons p t ih =>
    rw [List.map_cons] at hnd
    obtain ⟨hph, hpt⟩ := List.nodup_cons.mp hnd
    by_cases hp : p.1 = k
    · have hno : ∀ q ∈ t, q.1 ≠ k := by
        intro q hq heq
        apply hph
        rw [hp, ← heq]
        exact List.mem_map_of_mem Prod.fst hq
      by_cases hk : k' = k
      · simp [List.map_cons, hp, dictGet, hk, List.any_cons,
          map_overwrite_id t k v hno]
      · have hpk' : ¬ p.1 = k' := by rw [hp]; exact fun h => hk h.symm
        have hkk : ¬ k = k' := fun h => hk h.symm
        simp [List.map_cons, hp, dictGet, hk, hpk', hkk,
          map_overwrite_id t k v hno]
    · by_cases hk' : p.1 = k'
      · have hkk : ¬ k' = k := by rw [← hk']; exact hp
        simp [List.map_cons, hp, dictGet, hk', hkk]
      · by_cases hk : k' = k
        · subst hk
          simp [List.map_cons, hp, dictGet, hk', ih hpt, List.any_cons]
          rw [decide_eq_false hp, Bool.false_or]
        · simp [List.map_cons, hp, dictGet, hk', ih hpt, hk]

theorem dictGet_dictInsert (d : List (String × String)) (k v k' : String)
    (hnd : (d.map Prod.fst).Nodup) :
    dictGet (dictInsert d k v) k' = if k' = k then some v else dictGet d k' := by
  cases hb : d.any (fun p => p.1 = k) with
  | true =>
    simp only [dictInsert, hb, if_true]
    rw [dictGet_overwrite d k v k' hnd, hb]
    simp
  | false =>
    simp only [dictInsert, hb, Bool.false_eq_true, if_false]
    have hno := (any_key_false_iff d k).mp hb
    have hdn : dictGet d k = none := dictGet_none_of_no_match d k hno
    by_cases hk' : k' = k
    · subst hk'
      rw [dictGet_append_none d _ k' hdn]
      simp [dictGet]
    · cases hv : dictGet d k' with
      | some w =>
        rw [dictGet_append_some d _ k' w hv]
        simp [hk', hv]
      | none =>
        rw [dictGet_append_none d _ k' hv]
        have : k ≠ k' := fun h => hk' h.symm
        simp [dictGet, this, hk', hv]

theorem dictInsert_keys_nodup (d : List (String × String)) (k v : String)
    (hnd : (d.map Prod.fst).Nodup) : ((dictInsert d k v).map Prod.fst).Nodup := by
  cases hb : d.any (fun p => p.1 = k) with
  | true =>
    simp only [dictInsert, hb, if_true]
    have hkeys : (d.map (fun p => if p.1 = k then (p.1, v) else p)).map Prod.fst =
        d.map Prod.fst := by
      rw [List.map_map]
      refine List.map_congr_left ?_
      intro p _
      by_cases hp : p.1 = k <;> simp [hp]
    rw [hkeys]
    exact hnd
  | false =>
    simp only [dictInsert, hb, Bool.false_eq_true, if_false]
    have hno := (any_key_false_iff d k).mp hb
    have hk : k ∉ d.map Prod.fst := by
      intro hm
      rcases List.mem_map.mp hm with ⟨p, hp, hpk⟩
      exact hno p hp hpk
    rw [List.map_append, List.nodup_append]
    refine ⟨hnd, by simp, ?_⟩
    intro a ha hak
    simp only [List.map_cons, List.map_nil, List.mem_singleton] at hak
    subst hak
    exact hk ha

theorem dictGet_foldl_insert (l : List (String × String)) (k : String) :
    ∀ d, (d.map Prod.fst).Nodup →
      dictGet (l.foldl (fun d p => dictInsert d p.1 p.2) d) k =
        (lastVal l k).or (dictGet d k) := by
  induction l with
  | nil =>
    intro d _
    simp [lastVal, Option.or]
  | cons p t ih =>
    intro d hnd
    simp only [List.foldl_cons]
    rw [ih (dictInsert d p.1 p.2) (dictInsert_keys_nodup d p.1 p.2 hnd)]
    rw [dictGet_dictInsert d p.1 p.2 k hnd]
    simp only [lastVal]
    cases hv : lastVal t k with
    | some w => rfl
    | none =>
      by_cases hk : k = p.1
      · simp [hk, Option.or]
      · have hk2 : ¬ p.1 = k := fun h => hk h.symm
        simp [hk, hk2, Option.or]

theorem dictGet_parse_repos (repos : List (String × RepoInfo)) (url : String) :
    dictGet (parse_repos repos) url = lastVal (reposPairs repos) url := by
  unfold parse_repos toDict
  rw [dictGet_foldl_insert (reposPairs repos) url [] (by simp)]
  cases hv : lastVal (reposPairs repos) url <;> simp [hv, dictGet, Option.or]

/-- C9: when the manifest holds several entries with one url, the dict
comprehension of _parse_repos keeps the version of the last entry in
iteration order (later assignments to the same key overwrite earlier
ones), and update_repository_version rewrites exactly the last matching
entry, leaving every earlier duplicate untouched, in agreement with the
lookup. -/
theorem duplicate_url_last_wins (repos : List (String × RepoInfo)) (url v : String)
    (pre mid post : List (String × RepoInfo)) (k1 k2 : String) (i1 i2 : RepoInfo)
    (hnd : keysNodup repos)
    (hr : repos = pre ++ ((k1, i1) :: (mid ++ ((k2, i2) :: post))))
    (h1 : i1.url = url) (h2 : i2.url = url)
    (hpost : ∀ kv ∈ post, kv.2.url ≠ url) :
    dictGet (parse_repos repos) url = some i2.version ∧
    update_repository_version repos url v =
      Except.ok (pre ++ ((k1, i1) :: (mid ++ ((k2, RepoInfo.mk url v) :: post)))) := by
  subst hr
  subst h2
  constructor
  · rw [dictGet_parse_repos]
    simp only [reposPairs, List.map_append, List.map_cons]
    have hpostLV : lastVal (post.map (fun kv => (kv.2.url, kv.2.version))) i2.url = none := by
      apply lastVal_none_of_no_match
      intro p hp
      rcases List.mem_map.mp hp with ⟨kv, hkv, rfl⟩
      exact hpost kv hkv
    rw [lastVal_append]
    simp only [lastVal, lastVal_append, hpostLV]
    simp [Option.or]
  · have hassoc : pre ++ ((k1, i1) :: (mid ++ ((k2, i2) :: post))) =
        (pre ++ ((k1, i1) :: mid)) ++ ((k2, i2) :: post) := by simp
    rw [hassoc]
    have hk := lastMatchKey_append_last (pre ++ ((k1, i1) :: mid)) post k2 i2 i2.url rfl hpost
    have hnd' : (((pre ++ ((k1, i1) :: mid)) ++ ((k2, i2) :: post)).map Prod.fst).Nodup := by
      rw [← hassoc]; exact hnd
    obtain ⟨hp1, hp2⟩ := keys_separate (pre ++ ((k1, i1) :: mid)) post k2 i2 hnd'
    simp only [update_repository_version, hk]
    rw [setVersionByKey_append (pre ++ ((k1, i1) :: mid)) post k2 i2 v hp1 hp2]
    simp [List.append_assoc]

/-- Manifest with two entries sharing one url, for the C9 witness. -/
def reposDup : List (String × RepoInfo) :=
  [("p1", RepoInfo.mk "https://github.com/acme/a.git" "v1.0.0"),
   ("p2", RepoInfo.mk "https://github.com/acme/a.git" "v2.0.0")]

/-- Witness for C9: the lookup yields the later version, and the update
rewrites the later entry only. -/
theorem duplicate_url_last_wins_witness :
    dictGet (parse_repos reposDup) "https://github.com/acme/a.git" = some "v2.0.0" ∧
    update_repository_version reposDup "https://github.com/acme/a.git" "v3.0.0" =
      Except.ok [("p1", RepoInfo.mk "https://github.com/acme/a.git" "v1.0.0"),
        ("p2", RepoInfo.mk "https://github.com/acme/a.git" "v3.0.0")] :=
  duplicate_url_last_wins reposDup "https://github.com/acme/a.git" "v3.0.0" [] [] []
    "p1" "p2" (RepoInfo.mk "https://github.com/acme/a.git" "v1.0.0")
    (RepoInfo.mk "https://github.com/acme/a.git" "v2.0.0")
    (show (reposDup.map Prod.fst).Nodup by decide) rfl rfl rfl (by simp)

